import Mathlib

/-!
Shallow embedding of the arena binary tree of src/binary_tree.rs
(crate gbdt, module binary_tree) and proofs of the specification claims.

The Rust vector of nodes is modelled by a Lean list; mutation is modelled
by explicit state passing, so every Rust method taking a mutable reference
returns the new tree (paired with its returned index where the Rust method
returns one).  Lookups via Vec::get become List getElem? lookups.
-/

namespace Gbdt

/-- Node of the binary tree, mirroring struct BinaryTreeNode of the source:
a value, the node's own index, and left/right child indices where 0 means
"no child". -/
structure BinaryTreeNode (T : Type) where
  value : T
  index : Nat
  left : Nat
  right : Nat
deriving Repr, DecidableEq

/-- BinaryTreeNode::new: a detached node with index = 0, left = 0, right = 0. -/
def BinaryTreeNode.new {T : Type} (value : T) : BinaryTreeNode T :=
  ⟨value, 0, 0, 0⟩

/-- The binary tree, mirroring struct BinaryTree: a vector of nodes. -/
structure BinaryTree (T : Type) where
  tree : List (BinaryTreeNode T)
deriving Repr, DecidableEq

/-- BinaryTree::new: the empty tree. -/
def BinaryTree.new {T : Type} : BinaryTree T := ⟨[]⟩

/-- BinaryTree::is_empty. -/
def BinaryTree.is_empty {T : Type} (t : BinaryTree T) : Bool :=
  t.tree.isEmpty

/-- BinaryTree::len: number of nodes. -/
def BinaryTree.len {T : Type} (t : BinaryTree T) : Nat :=
  t.tree.length

/-- BinaryTree::get_root_index: always 0. -/
def BinaryTree.get_root_index {T : Type} (_t : BinaryTree T) : Nat := 0

/-- BinaryTree::get_node: bounds-checked lookup (Vec::get). -/
def BinaryTree.get_node {T : Type} (t : BinaryTree T) (index : Nat) :
    Option (BinaryTreeNode T) :=
  t.tree[index]?

/-- BinaryTree::get_left_child: None when node.left == 0, else bounds-checked
lookup of that index. -/
def BinaryTree.get_left_child {T : Type} (t : BinaryTree T)
    (node : BinaryTreeNode T) : Option (BinaryTreeNode T) :=
  if node.left = 0 then none else t.tree[node.left]?

/-- BinaryTree::get_right_child: None when node.right == 0, else bounds-checked
lookup of that index. -/
def BinaryTree.get_right_child {T : Type} (t : BinaryTree T)
    (node : BinaryTreeNode T) : Option (BinaryTreeNode T) :=
  if node.right = 0 then none else t.tree[node.right]?

/-- BinaryTree::add_node, the internal insertion routine.  It sets the child's
index field to the current length, pushes it, and — unless the new node sits
at position 0 — looks up `parent` in the *post-push* vector and, when present,
sets that node's left (is_left = true) or right (is_left = false) field to the
new position.  Returns the updated tree and the new position. -/
def BinaryTree.add_node {T : Type} (t : BinaryTree T) (parent : Nat)
    (is_left : Bool) (child : BinaryTreeNode T) : BinaryTree T × Nat :=
  let child := { child with index := t.tree.length }
  let tree1 := t.tree ++ [child]
  let position := tree1.length - 1
  if position = 0 then (⟨tree1⟩, position)
  else
    match tree1[parent]? with
    | some n =>
        (⟨tree1.set parent
            (if is_left then { n with left := position }
             else { n with right := position })⟩, position)
    | none => (⟨tree1⟩, position)

/-- BinaryTree::add_root = add_node(0, false, root). -/
def BinaryTree.add_root {T : Type} (t : BinaryTree T)
    (root : BinaryTreeNode T) : BinaryTree T × Nat :=
  t.add_node 0 false root

/-- BinaryTree::add_left_node = add_node(parent, true, child). -/
def BinaryTree.add_left_node {T : Type} (t : BinaryTree T) (parent : Nat)
    (child : BinaryTreeNode T) : BinaryTree T × Nat :=
  t.add_node parent true child

/-- BinaryTree::add_right_node = add_node(parent, false, child). -/
def BinaryTree.add_right_node {T : Type} (t : BinaryTree T) (parent : Nat)
    (child : BinaryTreeNode T) : BinaryTree T × Nat :=
  t.add_node parent false child

/-- One step of BinaryTree::print's explicit-stack loop, run with fuel.
The Rust stack is a Vec of (depth, Option<&Node>) popped from the end; the
list head models the Vec end (right child pushed before left, so left is
popped first).  The visit list records (depth, value) in visit order; the
result is `some visits` when the loop finishes within `fuel` iterations and
`none` otherwise. -/
def BinaryTree.printRun {T : Type} (t : BinaryTree T) :
    Nat → List (Nat × Option (BinaryTreeNode T)) → List (Nat × T) →
    Option (List (Nat × T))
  | _, [], out => some out.reverse
  | 0, _ :: _, _ => none
  | fuel + 1, (deep, node_opt) :: stack, out =>
    match node_opt with
    | none => t.printRun fuel stack out
    | some node =>
        t.printRun fuel
          ((deep + 1, t.get_left_child node) ::
           (deep + 1, t.get_right_child node) :: stack)
          ((deep, node.value) :: out)

/-- BinaryTree::print as a visit sequence: starts the loop from the stack
[(0, get_node(get_root_index()))] and records (depth, value) pairs. -/
def BinaryTree.printVisits {T : Type} (t : BinaryTree T) (fuel : Nat) :
    Option (List (Nat × T)) :=
  t.printRun fuel [(0, t.get_node t.get_root_index)] []

/-- The line print emits for one visit: four spaces per depth level, then
the literal dashes prefix, then the value's textual rendering. -/
def printLine {T : Type} (fmt : T → String) (entry : Nat × T) : String :=
  String.join (List.replicate entry.1 "    ") ++ "----" ++ fmt entry.2

/-- BinaryTree::print as the list of emitted lines, given a renderer for the
value type (the Rust Debug instance). -/
def BinaryTree.printLines {T : Type} (t : BinaryTree T) (fmt : T → String)
    (fuel : Nat) : Option (List String) :=
  (t.printVisits fuel).map (List.map (printLine fmt))

/-- Trees reachable from the empty tree by any sequence of add_root,
add_left_node and add_right_node calls with arbitrary parent indices, the
inserted nodes being built by BinaryTreeNode::new (the only public
constructor). -/
inductive Reachable {T : Type} : BinaryTree T → Prop where
  | new : Reachable BinaryTree.new
  | add_root (t : BinaryTree T) (v : T) :
      Reachable t → Reachable (t.add_root (BinaryTreeNode.new v)).1
  | add_left (t : BinaryTree T) (p : Nat) (v : T) :
      Reachable t → Reachable (t.add_left_node p (BinaryTreeNode.new v)).1
  | add_right (t : BinaryTree T) (p : Nat) (v : T) :
      Reachable t → Reachable (t.add_right_node p (BinaryTreeNode.new v)).1

/-- An insertion call, for counting insertions. -/
inductive TreeOp (T : Type) where
  | root (v : T)
  | left (p : Nat) (v : T)
  | right (p : Nat) (v : T)

/-- Apply one insertion call to a tree. -/
def applyOp {T : Type} (t : BinaryTree T) : TreeOp T → BinaryTree T
  | .root v => (t.add_root (BinaryTreeNode.new v)).1
  | .left p v => (t.add_left_node p (BinaryTreeNode.new v)).1
  | .right p v => (t.add_right_node p (BinaryTreeNode.new v)).1

/-- Build a tree from the empty tree by a list of insertion calls. -/
def buildTree {T : Type} (ops : List (TreeOp T)) : BinaryTree T :=
  ops.foldl applyOp BinaryTree.new

/-- No node other than j itself links to j. -/
def noIncoming {T : Type} (t : BinaryTree T) (j : Nat) : Prop :=
  ∀ k m, t.get_node k = some m → k ≠ j → m.left ≠ j ∧ m.right ≠ j

/-- Shape of a link field l of the node stored at index i: absent (0),
a strictly later in-bounds index, or a self-loop on an orphaned node. -/
def linkOK {T : Type} (t : BinaryTree T) (i l : Nat) : Prop :=
  l = 0 ∨ (i < l ∧ l < t.len) ∨ (l = i ∧ noIncoming t i)

/-- The structural invariant maintained by every insertion: each stored
node's index field equals its position, and both links are absent, strictly
increasing and in bounds, or an orphaned self-loop. -/
def TreeInv {T : Type} (t : BinaryTree T) : Prop :=
  ∀ i n, t.get_node i = some n →
    n.index = i ∧ linkOK t i n.left ∧ linkOK t i n.right

/-- The claimed strict invariant: every non-zero link is strictly greater
than the owning node's index. -/
def strictLinks {T : Type} (t : BinaryTree T) : Prop :=
  ∀ i n, t.get_node i = some n →
    (n.left = 0 ∨ i < n.left) ∧ (n.right = 0 ∨ i < n.right)

/-- The weakened invariant: every non-zero link is at least the owning
node's index. -/
def geLinks {T : Type} (t : BinaryTree T) : Prop :=
  ∀ i n, t.get_node i = some n →
    (n.left = 0 ∨ i ≤ n.left) ∧ (n.right = 0 ∨ i ≤ n.right)

/-- A node value fit to appear on the print stack: it is stored at its own
index and its links are absent or strictly increasing and in bounds. -/
def nodeOK {T : Type} (t : BinaryTree T) (n : BinaryTreeNode T) : Prop :=
  t.get_node n.index = some n ∧
    (n.left = 0 ∨ (n.index < n.left ∧ n.left < t.len)) ∧
    (n.right = 0 ∨ (n.index < n.right ∧ n.right < t.len))

/-- A print-stack entry is fit when its node, if any, is fit. -/
def entryOK {T : Type} (t : BinaryTree T) :
    Nat × Option (BinaryTreeNode T) → Prop
  | (_, none) => True
  | (_, some n) => nodeOK t n

/-- All entries of a print stack are fit. -/
def stackOK {T : Type} (t : BinaryTree T)
    (s : List (Nat × Option (BinaryTreeNode T))) : Prop :=
  ∀ e ∈ s, entryOK t e

/-- Termination weight of a print-stack entry. -/
def entryWeight {T : Type} (t : BinaryTree T) :
    Nat × Option (BinaryTreeNode T) → Nat
  | (_, none) => 1
  | (_, some n) => 3 ^ (t.len - n.index)

/-- Termination weight of a print stack. -/
def stackWeight {T : Type} (t : BinaryTree T)
    (s : List (Nat × Option (BinaryTreeNode T))) : Nat :=
  (s.map (entryWeight t)).sum

/-- The documented six-node example tree: root v10, left child v5 of the
root, right child v6 of the root, left child v7 and right child v8 of the
v6 node, left child v9 of the v5 node, threaded through the returned
indices exactly as in the source's doc test. -/
def scenarioTree {T : Type} (v10 v5 v6 v7 v8 v9 : T) : BinaryTree T :=
  let r0 := BinaryTree.new.add_root (BinaryTreeNode.new v10)
  let r1 := r0.1.add_left_node r0.2 (BinaryTreeNode.new v5)
  let r2 := r1.1.add_right_node r0.2 (BinaryTreeNode.new v6)
  let r3 := r2.1.add_left_node r2.2 (BinaryTreeNode.new v7)
  let r4 := r3.1.add_right_node r2.2 (BinaryTreeNode.new v8)
  (r4.1.add_left_node r1.2 (BinaryTreeNode.new v9)).1

/-- A one-node tree: the root 10, for concrete counterexamples. -/
def c1Tree1 : BinaryTree Nat :=
  (BinaryTree.new.add_root (BinaryTreeNode.new 10)).1

/-- The result of calling add_root a second time, on the non-empty c1Tree1. -/
def c1Tree2 : BinaryTree Nat :=
  (c1Tree1.add_root (BinaryTreeNode.new 20)).1

/-- The tree built by add_root(10) then add_left_node(1, 2): the parent index 1
equals the pre-call length, so the second node is inserted with a self-loop. -/
def c3Tree : BinaryTree Nat :=
  (c1Tree1.add_left_node 1 (BinaryTreeNode.new 2)).1

/-- The tree built by add_root(10) then add_left_node(0, 5). -/
def c7Tree : BinaryTree Nat :=
  (c1Tree1.add_left_node 0 (BinaryTreeNode.new 5)).1

/-- What add_root does on a non-empty tree: it is exactly add_right_node(0, c);
it appends c at the old length, sets node 0's right field to that index, and
leaves every other pre-existing node unchanged. -/
def addRootNonEmptySpec {T : Type} (t : BinaryTree T) (c : BinaryTreeNode T) :
    Prop :=
  t.add_root c = t.add_right_node 0 c ∧
  (t.add_root c).2 = t.len ∧
  (t.add_root c).1.len = t.len + 1 ∧
  (∃ n0, t.get_node 0 = some n0 ∧
    (t.add_root c).1.get_node 0 = some { n0 with right := t.len }) ∧
  (t.add_root c).1.get_node t.len = some { c with index := t.len } ∧
  ∀ j, j ≠ 0 → j ≠ t.len → (t.add_root c).1.get_node j = t.get_node j

/-- The claimed contract of add_left_node/add_right_node for a valid parent
index p: the call returns an index i with get_node(p) present, its patched
link equal to i, and get_node(i) present carrying the inserted value. -/
def addChildSpec {T : Type} (t : BinaryTree T) (p : Nat)
    (c : BinaryTreeNode T) : Prop :=
  (∃ n, (t.add_left_node p c).1.get_node p = some n ∧
    n.left = (t.add_left_node p c).2) ∧
  (∃ m, (t.add_left_node p c).1.get_node (t.add_left_node p c).2 = some m ∧
    m.value = c.value) ∧
  (∃ n, (t.add_right_node p c).1.get_node p = some n ∧
    n.right = (t.add_right_node p c).2) ∧
  (∃ m, (t.add_right_node p c).1.get_node (t.add_right_node p c).2 = some m ∧
    m.value = c.value)

/-- The claimed effect of inserting under an out-of-range parent index: the
node is appended (length grows by one) and every pre-existing node is left
unchanged. -/
def outOfRangeAppendSpec {T : Type} (t : BinaryTree T) (p : Nat)
    (c : BinaryTreeNode T) : Prop :=
  (t.add_left_node p c).1.len = t.len + 1 ∧
  (t.add_right_node p c).1.len = t.len + 1 ∧
  ∀ j, j < t.len →
    (t.add_left_node p c).1.get_node j = t.get_node j ∧
    (t.add_right_node p c).1.get_node j = t.get_node j

/-- The self-loop effect of inserting with parent index equal to the current
length on a non-empty tree: the new node lands at that position and its own
link field points back at itself. -/
def selfLoopSpec {T : Type} (t : BinaryTree T) (v : T) : Prop :=
  (t.add_left_node t.len (BinaryTreeNode.new v)).2 = t.len ∧
  (t.add_left_node t.len (BinaryTreeNode.new v)).1.get_node t.len =
    some ⟨v, t.len, t.len, 0⟩ ∧
  (t.add_right_node t.len (BinaryTreeNode.new v)).2 = t.len ∧
  (t.add_right_node t.len (BinaryTreeNode.new v)).1.get_node t.len =
    some ⟨v, t.len, 0, t.len⟩

/-- get_left_child/get_right_child return an absent result exactly when the
corresponding link field is 0. -/
def childAbsentIffSpec {T : Type} (t : BinaryTree T)
    (n : BinaryTreeNode T) : Prop :=
  (t.get_left_child n = none ↔ n.left = 0) ∧
  (t.get_right_child n = none ↔ n.right = 0)

/-- On an empty tree every insertion behaves identically: the node lands at
position 0 with index field 0 and links untouched, exactly as add_root. -/
def emptyInsertSpec {T : Type} (t : BinaryTree T) (p : Nat)
    (c : BinaryTreeNode T) : Prop :=
  t.add_left_node p c = (⟨[{ c with index := 0 }]⟩, 0) ∧
  t.add_right_node p c = (⟨[{ c with index := 0 }]⟩, 0) ∧
  t.add_root c = (⟨[{ c with index := 0 }]⟩, 0) ∧
  t.add_left_node p c = t.add_root c ∧
  t.add_right_node p c = t.add_root c

/-! ### Characterization of add_node -/

theorem set_concat_length {α : Type} (l : List α) (x y : α) :
    (l ++ [x]).set l.length y = l ++ [y] := by
  rw [List.set_append_right _ _ (Nat.le_refl _)]
  simp

theorem add_node_empty {T : Type} (t : BinaryTree T) (parent : Nat)
    (il : Bool) (c : BinaryTreeNode T) (h : t.tree = []) :
    t.add_node parent il c = (⟨[{ c with index := 0 }]⟩, 0) := by
  simp [BinaryTree.add_node, h]

theorem add_node_parent_lt {T : Type} (t : BinaryTree T) (parent : Nat)
    (il : Bool) (c n : BinaryTreeNode T)
    (h : parent < t.tree.length) (hn : t.tree[parent]? = some n) :
    t.add_node parent il c =
      (⟨(t.tree ++ [{ c with index := t.tree.length }]).set parent
          (if il then { n with left := t.tree.length }
           else { n with right := t.tree.length })⟩, t.tree.length) := by
  have hlen : ¬ t.tree.length = 0 := by omega
  simp [BinaryTree.add_node, hlen, List.getElem?_append_left h, hn]

theorem add_node_parent_self {T : Type} (t : BinaryTree T) (il : Bool)
    (c : BinaryTreeNode T) (h : t.tree.length ≠ 0) :
    t.add_node t.tree.length il c =
      (⟨t.tree ++
          [if il then ⟨c.value, t.tree.length, t.tree.length, c.right⟩
           else ⟨c.value, t.tree.length, c.left, t.tree.length⟩]⟩,
       t.tree.length) := by
  have hget : (t.tree ++ [{ c with index := t.tree.length }])[t.tree.length]? =
      some { c with index := t.tree.length } :=
    List.getElem?_concat_length _ _
  simp [BinaryTree.add_node, h, hget, set_concat_length]

theorem add_node_parent_big {T : Type} (t : BinaryTree T) (parent : Nat)
    (il : Bool) (c : BinaryTreeNode T) (h : t.tree.length ≠ 0)
    (hp : t.tree.length + 1 ≤ parent) :
    t.add_node parent il c =
      (⟨t.tree ++ [{ c with index := t.tree.length }]⟩, t.tree.length) := by
  have hget : (t.tree ++ [{ c with index := t.tree.length }])[parent]? = none :=
    List.getElem?_eq_none (by simp; omega)
  simp [BinaryTree.add_node, h, hget]

theorem add_node_len {T : Type} (t : BinaryTree T) (parent : Nat) (il : Bool)
    (c : BinaryTreeNode T) :
    (t.add_node parent il c).1.len = t.len + 1 ∧
      (t.add_node parent il c).2 = t.len := by
  by_cases h0 : t.tree = []
  · rw [add_node_empty t parent il c h0]
    simp [BinaryTree.len, h0]
  · have hL : t.tree.length ≠ 0 := by
      simpa [List.length_eq_zero] using h0
    rcases Nat.lt_trichotomy parent t.tree.length with hlt | heq | hgt
    · obtain ⟨n, hn⟩ : ∃ n, t.tree[parent]? = some n :=
        ⟨_, List.getElem?_eq_getElem hlt⟩
      rw [add_node_parent_lt t parent il c n hlt hn]
      simp [BinaryTree.len]
    · subst heq
      rw [add_node_parent_self t il c hL]
      simp [BinaryTree.len]
    · rw [add_node_parent_big t parent il c hL (by omega)]
      simp [BinaryTree.len]

/-! ### Preservation of the structural invariant -/

theorem linkOK_lift {T : Type} (t r : BinaryTree T) (i l : Nat)
    (hlen : t.len ≤ r.len)
    (hni : i ≠ 0 → noIncoming t i → noIncoming r i)
    (h : linkOK t i l) : linkOK r i l := by
  rcases h with h0 | ⟨h1, h2⟩ | ⟨h3, h4⟩
  · exact Or.inl h0
  · exact Or.inr (Or.inl ⟨h1, by omega⟩)
  · by_cases hz : i = 0
    · subst hz
      exact Or.inl h3
    · exact Or.inr (Or.inr ⟨h3, hni hz h4⟩)

theorem noIncoming_append {T : Type} (t : BinaryTree T) (x : BinaryTreeNode T)
    (j : Nat) (hxl : x.left ≠ j) (hxr : x.right ≠ j) (hno : noIncoming t j) :
    noIncoming ⟨t.tree ++ [x]⟩ j := by
  intro k m hm hkj
  simp only [BinaryTree.get_node] at hm
  rcases Nat.lt_trichotomy k t.tree.length with hk | rfl | hk
  · rw [List.getElem?_append_left hk] at hm
    exact hno k m hm hkj
  · rw [List.getElem?_concat_length] at hm
    cases hm
    exact ⟨hxl, hxr⟩
  · rw [List.getElem?_eq_none (by simp; omega)] at hm
    cases hm

theorem treeInv_append {T : Type} (t : BinaryTree T) (x : BinaryTreeNode T)
    (hInv : TreeInv t) (hxi : x.index = t.tree.length)
    (hxlinks :
      linkOK ⟨t.tree ++ [x]⟩ t.tree.length x.left ∧
      linkOK ⟨t.tree ++ [x]⟩ t.tree.length x.right)
    (hxl0 : x.left = 0 ∨ x.left = t.tree.length)
    (hxr0 : x.right = 0 ∨ x.right = t.tree.length) :
    TreeInv (⟨t.tree ++ [x]⟩ : BinaryTree T) := by
  intro i n hn
  simp only [BinaryTree.get_node] at hn
  have hlen : (⟨t.tree ++ [x]⟩ : BinaryTree T).len = t.len + 1 := by
    simp [BinaryTree.len]
  rcases Nat.lt_trichotomy i t.tree.length with hi | rfl | hi
  · rw [List.getElem?_append_left hi] at hn
    obtain ⟨hidx, hl, hr⟩ := hInv i n hn
    refine ⟨hidx, ?_, ?_⟩ <;>
      refine linkOK_lift t _ i _ (by omega) (fun hz hno => ?_) (by assumption)
    · refine noIncoming_append t x i ?_ ?_ hno
      · rcases hxl0 with h | h <;> omega
      · rcases hxr0 with h | h <;> omega
    · refine noIncoming_append t x i ?_ ?_ hno
      · rcases hxl0 with h | h <;> omega
      · rcases hxr0 with h | h <;> omega
  · rw [List.getElem?_concat_length] at hn
    cases hn
    exact ⟨hxi, hxlinks.1, hxlinks.2⟩
  · rw [List.getElem?_eq_none (by simp; omega)] at hn
    cases hn

theorem noIncoming_self_append {T : Type} (t : BinaryTree T)
    (x : BinaryTreeNode T) (hInv : TreeInv t) :
    noIncoming ⟨t.tree ++ [x]⟩ t.tree.length := by
  intro k m hm hkj
  simp only [BinaryTree.get_node] at hm
  rcases Nat.lt_trichotomy k t.tree.length with hk | rfl | hk
  · rw [List.getElem?_append_left hk] at hm
    obtain ⟨_, hl, hr⟩ := hInv k m hm
    constructor
    · rcases hl with h | ⟨_, h⟩ | ⟨h, _⟩ <;> simp [BinaryTree.len] at * <;> omega
    · rcases hr with h | ⟨_, h⟩ | ⟨h, _⟩ <;> simp [BinaryTree.len] at * <;> omega
  · exact absurd rfl hkj
  · rw [List.getElem?_eq_none (by simp; omega)] at hm
    cases hm

theorem treeInv_set_parent_core {T : Type} (t : BinaryTree T) (parent : Nat)
    (c np np' : BinaryTreeNode T) (hcl : c.left = 0) (hcr : c.right = 0)
    (hp : parent < t.tree.length) (hnp : t.tree[parent]? = some np)
    (hInv : TreeInv t)
    (hidx : np'.index = np.index)
    (hl : np'.left = t.tree.length ∨ np'.left = np.left)
    (hr : np'.right = t.tree.length ∨ np'.right = np.right) :
    TreeInv (⟨(t.tree ++ [{ c with index := t.tree.length }]).set parent np'⟩ :
      BinaryTree T) := by
  set L := t.tree.length with hLdef
  set c' : BinaryTreeNode T := { c with index := L } with hc'
  set r : BinaryTree T := ⟨(t.tree ++ [c']).set parent np'⟩ with hrdef
  have htlen : t.len = L := rfl
  have hplen : parent < (t.tree ++ [c']).length := by
    simp only [List.length_append, List.length_cons, List.length_nil]
    omega
  have hrlen : r.len = L + 1 := by
    rw [hrdef]
    simp [BinaryTree.len]
  have hgetp : r.tree[parent]? = some np' := List.getElem?_set_self hplen
  have hgetne : ∀ k, k ≠ parent → r.tree[k]? = (t.tree ++ [c'])[k]? := by
    intro k hk
    exact List.getElem?_set_ne (fun h => hk h.symm)
  have hni : ∀ j, j ≠ 0 → j < L → noIncoming t j → noIncoming r j := by
    intro j hj0 hjL hno k m hm hkj
    simp only [BinaryTree.get_node] at hm
    rcases eq_or_ne parent k with hkp | hkp
    · subst hkp
      rw [hgetp] at hm
      cases hm
      obtain ⟨hol, hor⟩ := hno parent np hnp hkj
      constructor
      · rcases hl with h | h <;> omega
      · rcases hr with h | h <;> omega
    · rw [hgetne k (Ne.symm hkp)] at hm
      rcases Nat.lt_trichotomy k L with hk | rfl | hk
      · rw [List.getElem?_append_left hk] at hm
        exact hno k m hm hkj
      · rw [List.getElem?_concat_length] at hm
        cases hm
        constructor
        · show c.left ≠ j
          omega
        · show c.right ≠ j
          omega
      · rw [List.getElem?_eq_none (by simp; omega)] at hm
        cases hm
  intro i n hn
  simp only [BinaryTree.get_node] at hn
  rcases eq_or_ne parent i with hip | hip
  · subst hip
    rw [hgetp] at hn
    cases hn
    obtain ⟨hpidx, hpl, hpr⟩ := hInv parent np hnp
    refine ⟨by omega, ?_, ?_⟩
    · rcases hl with h | h
      · rw [h]
        exact Or.inr (Or.inl ⟨hp, by omega⟩)
      · rw [h]
        exact linkOK_lift t r parent np.left (by omega)
          (fun hz hno => hni parent hz hp hno) hpl
    · rcases hr with h | h
      · rw [h]
        exact Or.inr (Or.inl ⟨hp, by omega⟩)
      · rw [h]
        exact linkOK_lift t r parent np.right (by omega)
          (fun hz hno => hni parent hz hp hno) hpr
  · rw [hgetne i (Ne.symm hip)] at hn
    rcases Nat.lt_trichotomy i L with hi | rfl | hi
    · rw [List.getElem?_append_left hi] at hn
      obtain ⟨hidx', hl', hr'⟩ := hInv i n hn
      exact ⟨hidx',
        linkOK_lift t r i n.left (by omega) (fun hz hno => hni i hz hi hno) hl',
        linkOK_lift t r i n.right (by omega) (fun hz hno => hni i hz hi hno) hr'⟩
    · rw [List.getElem?_concat_length] at hn
      cases hn
      exact ⟨rfl, Or.inl hcl, Or.inl hcr⟩
    · rw [List.getElem?_eq_none (by simp; omega)] at hn
      cases hn

theorem treeInv_set_parent {T : Type} (t : BinaryTree T) (parent : Nat)
    (il : Bool) (c np : BinaryTreeNode T) (hcl : c.left = 0) (hcr : c.right = 0)
    (hp : parent < t.tree.length) (hnp : t.tree[parent]? = some np)
    (hInv : TreeInv t) : TreeInv (t.add_node parent il c).1 := by
  rw [add_node_parent_lt t parent il c np hp hnp]
  cases il
  · exact treeInv_set_parent_core t parent c np _ hcl hcr hp hnp hInv rfl
      (Or.inr rfl) (Or.inl rfl)
  · exact treeInv_set_parent_core t parent c np _ hcl hcr hp hnp hInv rfl
      (Or.inl rfl) (Or.inr rfl)

theorem treeInv_add_node {T : Type} (t : BinaryTree T) (parent : Nat)
    (il : Bool) (c : BinaryTreeNode T) (hcl : c.left = 0) (hcr : c.right = 0)
    (hInv : TreeInv t) : TreeInv (t.add_node parent il c).1 := by
  by_cases h0 : t.tree = []
  · rw [add_node_empty t parent il c h0]
    intro i n hn
    simp only [BinaryTree.get_node] at hn
    rcases i with _ | i
    · simp only [List.getElem?_cons_zero] at hn
      cases hn
      exact ⟨rfl, Or.inl hcl, Or.inl hcr⟩
    · simp at hn
  · have hL : t.tree.length ≠ 0 := by simpa [List.length_eq_zero] using h0
    rcases Nat.lt_trichotomy parent t.tree.length with hlt | heq | hgt
    · obtain ⟨np, hnp⟩ : ∃ np, t.tree[parent]? = some np :=
        ⟨_, List.getElem?_eq_getElem hlt⟩
      exact treeInv_set_parent t parent il c np hcl hcr hlt hnp hInv
    · subst heq
      rw [add_node_parent_self t il c hL]
      cases il
      · refine treeInv_append t _ hInv rfl ⟨?_, ?_⟩ (Or.inl hcl) (Or.inr rfl)
        · exact Or.inl hcl
        · exact Or.inr (Or.inr ⟨rfl, noIncoming_self_append t _ hInv⟩)
      · refine treeInv_append t _ hInv rfl ⟨?_, ?_⟩ (Or.inr rfl) (Or.inl hcr)
        · exact Or.inr (Or.inr ⟨rfl, noIncoming_self_append t _ hInv⟩)
        · exact Or.inl hcr
    · rw [add_node_parent_big t parent il c hL (by omega)]
      exact treeInv_append t _ hInv rfl ⟨Or.inl hcl, Or.inl hcr⟩
        (Or.inl hcl) (Or.inl hcr)

theorem treeInv_new {T : Type} : TreeInv (BinaryTree.new : BinaryTree T) := by
  intro i n hn
  simp [BinaryTree.get_node, BinaryTree.new] at hn

theorem treeInv_of_reachable {T : Type} {t : BinaryTree T}
    (h : Reachable t) : TreeInv t := by
  induction h with
  | new => exact treeInv_new
  | add_root t v _ ih =>
      exact treeInv_add_node t 0 false (BinaryTreeNode.new v) rfl rfl ih
  | add_left t p v _ ih =>
      exact treeInv_add_node t p true (BinaryTreeNode.new v) rfl rfl ih
  | add_right t p v _ ih =>
      exact treeInv_add_node t p false (BinaryTreeNode.new v) rfl rfl ih

/-! ### Termination of the print loop -/

theorem entryWeight_pos {T : Type} (t : BinaryTree T)
    (e : Nat × Option (BinaryTreeNode T)) : 1 ≤ entryWeight t e := by
  rcases e with ⟨d, _ | n⟩
  · exact le_refl 1
  · exact Nat.one_le_pow _ _ (by omega)

theorem stackWeight_cons {T : Type} (t : BinaryTree T) (e)
    (s : List (Nat × Option (BinaryTreeNode T))) :
    stackWeight t (e :: s) = entryWeight t e + stackWeight t s := by
  simp [stackWeight]

theorem links_strict_of_incoming {T : Type} (t : BinaryTree T)
    (hInv : TreeInv t) (j : Nat) (m : BinaryTreeNode T)
    (hm : t.get_node j = some m) (k : Nat) (nk : BinaryTreeNode T)
    (hk : t.get_node k = some nk) (hkj : k ≠ j)
    (hlink : nk.left = j ∨ nk.right = j) :
    (m.left = 0 ∨ (j < m.left ∧ m.left < t.len)) ∧
      (m.right = 0 ∨ (j < m.right ∧ m.right < t.len)) := by
  obtain ⟨_, hl, hr⟩ := hInv j m hm
  have hno : ¬ noIncoming t j := by
    intro h2
    obtain ⟨h3, h4⟩ := h2 k nk hk hkj
    rcases hlink with h | h <;> omega
  constructor
  · rcases hl with h | h | ⟨h1, h2⟩
    · exact Or.inl h
    · exact Or.inr h
    · exact absurd h2 hno
  · rcases hr with h | h | ⟨h1, h2⟩
    · exact Or.inl h
    · exact Or.inr h
    · exact absurd h2 hno

theorem left_child_ok {T : Type} (t : BinaryTree T) (hInv : TreeInv t)
    (n : BinaryTreeNode T) (hn : nodeOK t n) (d : Nat) :
    entryOK t (d, t.get_left_child n) ∧
      entryWeight t (d, t.get_left_child n) ≤ 3 ^ (t.len - n.index - 1) := by
  obtain ⟨hget, hl, hr⟩ := hn
  by_cases h0 : n.left = 0
  · simp only [BinaryTree.get_left_child, if_pos h0]
    exact ⟨trivial, Nat.one_le_pow _ _ (by omega)⟩
  · rcases hl with h | ⟨hlt, hlen⟩
    · exact absurd h h0
    · obtain ⟨m, hm⟩ : ∃ m, t.tree[n.left]? = some m :=
        ⟨_, List.getElem?_eq_getElem hlen⟩
      have hmnode : t.get_node n.left = some m := hm
      obtain ⟨hmidx, _, _⟩ := hInv n.left m hmnode
      have hstrict := links_strict_of_incoming t hInv n.left m hmnode
        n.index n hget (by omega) (Or.inl rfl)
      have hchild : t.get_left_child n = some m := by
        simp only [BinaryTree.get_left_child, if_neg h0]
        exact hm
      rw [hchild]
      refine ⟨⟨by rw [hmidx]; exact hmnode, by rw [hmidx]; exact hstrict.1,
        by rw [hmidx]; exact hstrict.2⟩, ?_⟩
      show 3 ^ (t.len - m.index) ≤ 3 ^ (t.len - n.index - 1)
      exact Nat.pow_le_pow_right (by omega) (by omega)

theorem right_child_ok {T : Type} (t : BinaryTree T) (hInv : TreeInv t)
    (n : BinaryTreeNode T) (hn : nodeOK t n) (d : Nat) :
    entryOK t (d, t.get_right_child n) ∧
      entryWeight t (d, t.get_right_child n) ≤ 3 ^ (t.len - n.index - 1) := by
  obtain ⟨hget, hl, hr⟩ := hn
  by_cases h0 : n.right = 0
  · simp only [BinaryTree.get_right_child, if_pos h0]
    exact ⟨trivial, Nat.one_le_pow _ _ (by omega)⟩
  · rcases hr with h | ⟨hlt, hlen⟩
    · exact absurd h h0
    · obtain ⟨m, hm⟩ : ∃ m, t.tree[n.right]? = some m :=
        ⟨_, List.getElem?_eq_getElem hlen⟩
      have hmnode : t.get_node n.right = some m := hm
      obtain ⟨hmidx, _, _⟩ := hInv n.right m hmnode
      have hstrict := links_strict_of_incoming t hInv n.right m hmnode
        n.index n hget (by omega) (Or.inr rfl)
      have hchild : t.get_right_child n = some m := by
        simp only [BinaryTree.get_right_child, if_neg h0]
        exact hm
      rw [hchild]
      refine ⟨⟨by rw [hmidx]; exact hmnode, by rw [hmidx]; exact hstrict.1,
        by rw [hmidx]; exact hstrict.2⟩, ?_⟩
      show 3 ^ (t.len - m.index) ≤ 3 ^ (t.len - n.index - 1)
      exact Nat.pow_le_pow_right (by omega) (by omega)

theorem printRun_nil {T : Type} (t : BinaryTree T) (fuel : Nat)
    (out : List (Nat × T)) : t.printRun fuel [] out = some out.reverse := by
  cases fuel <;> rfl

theorem printRun_none {T : Type} (t : BinaryTree T) (fuel d : Nat)
    (s : List (Nat × Option (BinaryTreeNode T))) (out : List (Nat × T)) :
    t.printRun (fuel + 1) ((d, none) :: s) out = t.printRun fuel s out := rfl

theorem printRun_some {T : Type} (t : BinaryTree T) (fuel d : Nat)
    (n : BinaryTreeNode T) (s : List (Nat × Option (BinaryTreeNode T)))
    (out : List (Nat × T)) :
    t.printRun (fuel + 1) ((d, some n) :: s) out =
      t.printRun fuel
        ((d + 1, t.get_left_child n) :: (d + 1, t.get_right_child n) :: s)
        ((d, n.value) :: out) := rfl

theorem printRun_total {T : Type} (t : BinaryTree T) (hInv : TreeInv t) :
    ∀ fuel s out, stackOK t s → stackWeight t s ≤ fuel →
      ∃ res, t.printRun fuel s out = some res := by
  intro fuel
  induction fuel with
  | zero =>
      intro s out hok hw
      cases s with
      | nil => exact ⟨out.reverse, printRun_nil t 0 out⟩
      | cons e s' =>
          exfalso
          have h1 := entryWeight_pos t e
          have h2 := stackWeight_cons t e s'
          omega
  | succ f ih =>
      intro s out hok hw
      cases s with
      | nil => exact ⟨out.reverse, printRun_nil t (f + 1) out⟩
      | cons e s' =>
          have hwc := stackWeight_cons t e s'
          rcases e with ⟨d, eo⟩
          cases eo with
          | none =>
              rw [printRun_none]
              refine ih s' out (fun e he => hok e (List.mem_cons_of_mem _ he)) ?_
              have h1 : entryWeight t ((d, none) :
                  Nat × Option (BinaryTreeNode T)) = 1 := rfl
              omega
          | some n =>
              have hn : nodeOK t n := hok (d, some n) (List.mem_cons_self _ _)
              have hidxlt : n.index < t.len := by
                have h := hn.1
                simp only [BinaryTree.get_node] at h
                exact (List.getElem?_eq_some_iff.mp h).1
              obtain ⟨hlOK, hlW⟩ := left_child_ok t hInv n hn (d + 1)
              obtain ⟨hrOK, hrW⟩ := right_child_ok t hInv n hn (d + 1)
              rw [printRun_some]
              refine ih _ _ ?_ ?_
              · intro e he
                simp only [List.mem_cons] at he
                rcases he with rfl | rfl | he
                · exact hlOK
                · exact hrOK
                · exact hok e (List.mem_cons_of_mem _ he)
              · have hw1 := stackWeight_cons t (d + 1, t.get_left_child n)
                  ((d + 1, t.get_right_child n) :: s')
                have hw2 := stackWeight_cons t (d + 1, t.get_right_child n) s'
                have hY : entryWeight t ((d, some n) :
                    Nat × Option (BinaryTreeNode T)) = 3 ^ (t.len - n.index) :=
                  rfl
                have h3 : 3 ^ (t.len - n.index) = 3 ^ (t.len - n.index - 1) * 3 := by
                  have he : t.len - n.index = (t.len - n.index - 1) + 1 := by omega
                  conv_lhs => rw [he]
                  rw [pow_succ]
                have hx : 1 ≤ 3 ^ (t.len - n.index - 1) :=
                  Nat.one_le_pow _ _ (by omega)
                omega

theorem print_terminates_of_inv {T : Type} (t : BinaryTree T)
    (hInv : TreeInv t) : ∃ fuel res, t.printVisits fuel = some res := by
  have hok : stackOK t [(0, t.get_node t.get_root_index)] := by
    intro e he
    simp only [List.mem_singleton] at he
    subst he
    cases hroot : t.get_node t.get_root_index with
    | none => trivial
    | some n0 =>
        obtain ⟨hidx, hl, hr⟩ := hInv 0 n0 hroot
        refine ⟨by rw [hidx]; exact hroot, ?_, ?_⟩
        · rcases hl with h | ⟨h1, h2⟩ | ⟨h1, h2⟩
          · exact Or.inl h
          · exact Or.inr ⟨by omega, h2⟩
          · exact Or.inl (by omega)
        · rcases hr with h | ⟨h1, h2⟩ | ⟨h1, h2⟩
          · exact Or.inl h
          · exact Or.inr ⟨by omega, h2⟩
          · exact Or.inl (by omega)
  exact ⟨stackWeight t [(0, t.get_node t.get_root_index)],
    printRun_total t hInv _ _ [] hok (le_refl _)⟩

/-! ### Lengths under sequences of insertions -/

theorem applyOp_len {T : Type} (t : BinaryTree T) (op : TreeOp T) :
    (applyOp t op).len = t.len + 1 := by
  cases op with
  | root v => exact (add_node_len t 0 false _).1
  | left p v => exact (add_node_len t p true _).1
  | right p v => exact (add_node_len t p false _).1

theorem foldl_applyOp_len {T : Type} (ops : List (TreeOp T)) :
    ∀ t : BinaryTree T, (ops.foldl applyOp t).len = t.len + ops.length := by
  induction ops with
  | nil =>
      intro t
      simp
  | cons op ops ih =>
      intro t
      rw [List.foldl_cons, ih, applyOp_len]
      simp [Nat.add_comm, Nat.add_assoc, Nat.add_left_comm]

/-! ### The documented six-node scenario evaluates to an explicit tree -/

theorem scenarioTree_eq {T : Type} (v10 v5 v6 v7 v8 v9 : T) :
    scenarioTree v10 v5 v6 v7 v8 v9 =
      ⟨[⟨v10, 0, 1, 2⟩, ⟨v5, 1, 5, 0⟩, ⟨v6, 2, 3, 4⟩,
        ⟨v7, 3, 0, 0⟩, ⟨v8, 4, 0, 0⟩, ⟨v9, 5, 0, 0⟩]⟩ := by
  have h0 : BinaryTree.new.add_root (BinaryTreeNode.new v10) =
      ((⟨[⟨v10, 0, 0, 0⟩]⟩ : BinaryTree T), 0) := rfl
  have h1 : ((⟨[⟨v10, 0, 0, 0⟩]⟩ : BinaryTree T), 0).1.add_left_node
      ((⟨[⟨v10, 0, 0, 0⟩]⟩ : BinaryTree T), 0).2 (BinaryTreeNode.new v5) =
      ((⟨[⟨v10, 0, 1, 0⟩, ⟨v5, 1, 0, 0⟩]⟩ : BinaryTree T), 1) := rfl
  have h2 : ((⟨[⟨v10, 0, 1, 0⟩, ⟨v5, 1, 0, 0⟩]⟩ : BinaryTree T), 1).1.add_right_node
      ((⟨[⟨v10, 0, 0, 0⟩]⟩ : BinaryTree T), 0).2 (BinaryTreeNode.new v6) =
      ((⟨[⟨v10, 0, 1, 2⟩, ⟨v5, 1, 0, 0⟩, ⟨v6, 2, 0, 0⟩]⟩ : BinaryTree T), 2) := rfl
  have h3 : ((⟨[⟨v10, 0, 1, 2⟩, ⟨v5, 1, 0, 0⟩, ⟨v6, 2, 0, 0⟩]⟩ :
        BinaryTree T), 2).1.add_left_node
      ((⟨[⟨v10, 0, 1, 2⟩, ⟨v5, 1, 0, 0⟩, ⟨v6, 2, 0, 0⟩]⟩ : BinaryTree T), 2).2
      (BinaryTreeNode.new v7) =
      ((⟨[⟨v10, 0, 1, 2⟩, ⟨v5, 1, 0, 0⟩, ⟨v6, 2, 3, 0⟩, ⟨v7, 3, 0, 0⟩]⟩ :
        BinaryTree T), 3) := rfl
  have h4 : ((⟨[⟨v10, 0, 1, 2⟩, ⟨v5, 1, 0, 0⟩, ⟨v6, 2, 3, 0⟩, ⟨v7, 3, 0, 0⟩]⟩ :
        BinaryTree T), 3).1.add_right_node
      ((⟨[⟨v10, 0, 1, 2⟩, ⟨v5, 1, 0, 0⟩, ⟨v6, 2, 0, 0⟩]⟩ : BinaryTree T), 2).2
      (BinaryTreeNode.new v8) =
      ((⟨[⟨v10, 0, 1, 2⟩, ⟨v5, 1, 0, 0⟩, ⟨v6, 2, 3, 4⟩, ⟨v7, 3, 0, 0⟩,
          ⟨v8, 4, 0, 0⟩]⟩ : BinaryTree T), 4) := rfl
  have h5 : ((⟨[⟨v10, 0, 1, 2⟩, ⟨v5, 1, 0, 0⟩, ⟨v6, 2, 3, 4⟩, ⟨v7, 3, 0, 0⟩,
          ⟨v8, 4, 0, 0⟩]⟩ : BinaryTree T), 4).1.add_left_node
      ((⟨[⟨v10, 0, 1, 0⟩, ⟨v5, 1, 0, 0⟩]⟩ : BinaryTree T), 1).2
      (BinaryTreeNode.new v9) =
      ((⟨[⟨v10, 0, 1, 2⟩, ⟨v5, 1, 5, 0⟩, ⟨v6, 2, 3, 4⟩, ⟨v7, 3, 0, 0⟩,
          ⟨v8, 4, 0, 0⟩, ⟨v9, 5, 0, 0⟩]⟩ : BinaryTree T), 5) := rfl
  simp only [scenarioTree]
  rw [h0, h1, h2, h3, h4, h5]

/-! ### The claims -/

/-- Claim C6: on a non-empty tree, add_left_node with parent index equal to
the current length appends the new node at that position and sets the new
node's own left field to that same position (a self-loop); symmetrically for
add_right_node and the right field. -/
theorem C6_self_loop_insert {T : Type} (t : BinaryTree T) (v : T)
    (h : t.len ≠ 0) : selfLoopSpec t v := by
  have hL : t.tree.length ≠ 0 := h
  refine ⟨(add_node_len t t.len true _).2, ?_,
    (add_node_len t t.len false _).2, ?_⟩
  · show (t.add_node t.tree.length true (BinaryTreeNode.new v)).1.get_node
      t.tree.length = _
    rw [add_node_parent_self t true _ hL]
    show (t.tree ++ [_])[t.tree.length]? = _
    rw [List.getElem?_concat_length]
    rfl
  · show (t.add_node t.tree.length false (BinaryTreeNode.new v)).1.get_node
      t.tree.length = _
    rw [add_node_parent_self t false _ hL]
    show (t.tree ++ [_])[t.tree.length]? = _
    rw [List.getElem?_concat_length]
    rfl

/-- Witness for C6 at the concrete one-node tree c1Tree1 and value 2. -/
theorem C6_witness : c1Tree1.len ≠ 0 ∧ selfLoopSpec c1Tree1 2 :=
  ⟨by decide, C6_self_loop_insert c1Tree1 2 (by decide)⟩

/-- Claim C8: for every sequence of insertion calls starting from the empty
tree, len() equals the number of insertion calls performed, and is_empty()
is true exactly when len() is 0. -/
theorem C8_len_counts_insertions {T : Type} (ops : List (TreeOp T)) :
    (buildTree ops).len = ops.length ∧
      ((buildTree ops).is_empty = true ↔ (buildTree ops).len = 0) := by
  constructor
  · rw [buildTree, foldl_applyOp_len]
    simp [BinaryTree.new, BinaryTree.len]
  · simp [BinaryTree.is_empty, BinaryTree.len, List.isEmpty_iff,
      List.length_eq_zero]

/-- Claim C9: in the documented build sequence (root 10.0, left child 5.0 of
the root, right child 6.0 of the root, left child 7.0 and right child 8.0 of
the 6.0 node, left child 9.0 of the 5.0 node), len() is 6 and print visits
the values 10.0, 5.0, 9.0, 6.0, 7.0, 8.0 at depths 0, 1, 2, 1, 2, 2, each
line indented four spaces per depth level and prefixed by four dashes. -/
theorem C9_scenario {T : Type} (v10 v5 v6 v7 v8 v9 : T) (fmt : T → String) :
    (scenarioTree v10 v5 v6 v7 v8 v9).len = 6 ∧
    (scenarioTree v10 v5 v6 v7 v8 v9).printVisits 100 =
      some [(0, v10), (1, v5), (2, v9), (1, v6), (2, v7), (2, v8)] ∧
    (scenarioTree v10 v5 v6 v7 v8 v9).printLines fmt 100 =
      some ["----" ++ fmt v10, "    ----" ++ fmt v5, "        ----" ++ fmt v9,
        "    ----" ++ fmt v6, "        ----" ++ fmt v7,
        "        ----" ++ fmt v8] := by
  rw [scenarioTree_eq]
  exact ⟨rfl, rfl, rfl⟩

/-- Claim C10: on an empty tree every insertion operation behaves exactly
like add_root: for any parent index p the node is placed at position 0 with
index field 0 and no parent link is established. -/
theorem C10_empty_tree_insert {T : Type} (t : BinaryTree T) (p : Nat)
    (c : BinaryTreeNode T) (h : t.is_empty = true) : emptyInsertSpec t p c := by
  have h0 : t.tree = [] := by
    simpa [BinaryTree.is_empty, List.isEmpty_iff] using h
  exact ⟨add_node_empty t p true c h0, add_node_empty t p false c h0,
    add_node_empty t 0 false c h0,
    (add_node_empty t p true c h0).trans (add_node_empty t 0 false c h0).symm,
    (add_node_empty t p false c h0).trans (add_node_empty t 0 false c h0).symm⟩

/-- Witness for C10 on the empty tree with parent index 7 and value 3. -/
theorem C10_witness :
    (BinaryTree.new : BinaryTree Nat).is_empty = true ∧
      emptyInsertSpec (BinaryTree.new : BinaryTree Nat) 7
        (BinaryTreeNode.new 3) :=
  ⟨rfl, C10_empty_tree_insert BinaryTree.new 7 (BinaryTreeNode.new 3) rfl⟩

/-- Counterexample to C1 as stated: on the one-node tree c1Tree1 (right field
of node 0 is 0), a second add_root changes node 0's right field to 1, and the
appended node is reachable from the root by traversal as its right child —
not an orphan. -/
theorem C1_counterexample :
    (c1Tree1.get_node 0).map BinaryTreeNode.right = some 0 ∧
    c1Tree2.get_node 0 = some ⟨10, 0, 0, 1⟩ ∧
    c1Tree2.get_right_child ⟨10, 0, 0, 1⟩ = some ⟨20, 1, 0, 0⟩ := by
  decide

/-- Claim C1 amended: calling add_root on a non-empty tree appends the node
at the tree's current length and sets node 0's right field to that index
(add_root behaves exactly like add_right_node(0, node)); every other
pre-existing node is unchanged, and the appended node is the root's right
child rather than an orphan. -/
theorem C1_add_root_nonempty {T : Type} (t : BinaryTree T)
    (c : BinaryTreeNode T) (h : t.len ≠ 0) : addRootNonEmptySpec t c := by
  have hL : t.tree.length ≠ 0 := h
  have hlt : 0 < t.tree.length := by omega
  obtain ⟨n0, hn0⟩ : ∃ n0, t.tree[0]? = some n0 :=
    ⟨_, List.getElem?_eq_getElem hlt⟩
  have hchar := add_node_parent_lt t 0 false c n0 hlt hn0
  refine ⟨rfl, (add_node_len t 0 false c).2, (add_node_len t 0 false c).1,
    ⟨n0, hn0, ?_⟩, ?_, ?_⟩
  · show (t.add_node 0 false c).1.get_node 0 = _
    rw [hchar]
    show ((t.tree ++ [_]).set 0 _)[0]? = _
    rw [List.getElem?_set_self (by simp)]
    rfl
  · show (t.add_node 0 false c).1.get_node t.len = _
    rw [hchar]
    show ((t.tree ++ [_]).set 0 _)[t.tree.length]? = _
    rw [List.getElem?_set_ne (show (0 : Nat) ≠ t.tree.length from by omega),
      List.getElem?_concat_length]
    rfl
  · intro j hj0 hjL
    show (t.add_node 0 false c).1.get_node j = t.get_node j
    rw [hchar]
    show ((t.tree ++ [_]).set 0 _)[j]? = t.tree[j]?
    rw [List.getElem?_set_ne (show (0 : Nat) ≠ j from fun hh => hj0 hh.symm)]
    have hjL' : j ≠ t.tree.length := hjL
    rcases Nat.lt_trichotomy j t.tree.length with hlt' | heq | hgt
    · exact List.getElem?_append_left hlt'
    · exact absurd heq hjL'
    · rw [List.getElem?_eq_none (l := t.tree ++ [_]) (by simp; omega),
        List.getElem?_eq_none (by omega)]

/-- Witness for the amended C1 at the concrete one-node tree c1Tree1. -/
theorem C1_witness :
    c1Tree1.len ≠ 0 ∧ addRootNonEmptySpec c1Tree1 (BinaryTreeNode.new 20) :=
  ⟨by decide, C1_add_root_nonempty c1Tree1 (BinaryTreeNode.new 20) (by decide)⟩

/-- Claim C2: for every parent index p obtained from a prior insertion (i.e.
p < len()), add_left_node(p, v) returns an index i with get_node(p) present,
its left field equal to i, and get_node(i) present with value v; symmetric
for add_right_node and the right field. -/
theorem C2_valid_parent_insert {T : Type} (t : BinaryTree T) (p : Nat)
    (c : BinaryTreeNode T) (h : p < t.len) : addChildSpec t p c := by
  have hp : p < t.tree.length := h
  obtain ⟨np, hnp⟩ : ∃ np, t.tree[p]? = some np :=
    ⟨_, List.getElem?_eq_getElem hp⟩
  have hpL : p ≠ t.tree.length := by omega
  refine ⟨⟨{ np with left := t.tree.length }, ?_, ?_⟩,
    ⟨{ c with index := t.tree.length }, ?_, rfl⟩,
    ⟨{ np with right := t.tree.length }, ?_, ?_⟩,
    ⟨{ c with index := t.tree.length }, ?_, rfl⟩⟩
  · show (t.add_node p true c).1.get_node p = _
    rw [add_node_parent_lt t p true c np hp hnp]
    show ((t.tree ++ [_]).set p _)[p]? = _
    rw [List.getElem?_set_self (by simp; omega)]
    rfl
  · show t.tree.length = (t.add_node p true c).2
    exact ((add_node_len t p true c).2).symm
  · show (t.add_node p true c).1.get_node (t.add_node p true c).2 = _
    rw [add_node_parent_lt t p true c np hp hnp]
    show ((t.tree ++ [_]).set p _)[t.tree.length]? = _
    rw [List.getElem?_set_ne hpL, List.getElem?_concat_length]
  · show (t.add_node p false c).1.get_node p = _
    rw [add_node_parent_lt t p false c np hp hnp]
    show ((t.tree ++ [_]).set p _)[p]? = _
    rw [List.getElem?_set_self (by simp; omega)]
    rfl
  · show t.tree.length = (t.add_node p false c).2
    exact ((add_node_len t p false c).2).symm
  · show (t.add_node p false c).1.get_node (t.add_node p false c).2 = _
    rw [add_node_parent_lt t p false c np hp hnp]
    show ((t.tree ++ [_]).set p _)[t.tree.length]? = _
    rw [List.getElem?_set_ne hpL, List.getElem?_concat_length]

/-- Witness for C2 at the concrete one-node tree c1Tree1 and parent 0. -/
theorem C2_witness :
    0 < c1Tree1.len ∧ addChildSpec c1Tree1 0 (BinaryTreeNode.new 5) :=
  ⟨by decide, C2_valid_parent_insert c1Tree1 0 (BinaryTreeNode.new 5) (by decide)⟩

/-- Counterexample to C3 as stated: c3Tree is reachable from the empty tree
(add_root(10) then add_left_node(1, 2)), and its node 1 has left field 1 —
non-zero but not strictly greater than the node's own index. -/
theorem C3_counterexample :
    Reachable c3Tree ∧ c3Tree.get_node 1 = some ⟨2, 1, 1, 0⟩ ∧
      ¬ strictLinks c3Tree := by
  refine ⟨Reachable.add_left c1Tree1 1 2
    (Reachable.add_root BinaryTree.new 10 Reachable.new), by decide, ?_⟩
  intro h
  obtain ⟨h1, -⟩ := h 1 ⟨2, 1, 1, 0⟩ (by decide)
  rcases h1 with h1 | h1 <;> exact absurd h1 (by decide)

/-- Claim C3 amended: in every reachable tree, every node's left and right
fields, if non-zero, refer to a node inserted no earlier, i.e. are greater
than or equal to that node's own index (equality arises exactly through the
self-loop insertion with parent index equal to the pre-call length). -/
theorem C3_links_ge {T : Type} (t : BinaryTree T) (h : Reachable t) :
    geLinks t := by
  intro i n hn
  obtain ⟨hidx, hl, hr⟩ := treeInv_of_reachable h i n hn
  constructor
  · rcases hl with h' | ⟨h1, _⟩ | ⟨h1, _⟩
    · exact Or.inl h'
    · exact Or.inr (Nat.le_of_lt h1)
    · exact Or.inr (Nat.le_of_eq h1.symm)
  · rcases hr with h' | ⟨h1, _⟩ | ⟨h1, _⟩
    · exact Or.inl h'
    · exact Or.inr (Nat.le_of_lt h1)
    · exact Or.inr (Nat.le_of_eq h1.symm)

/-- Witness for the amended C3 at the concrete self-loop tree c3Tree. -/
theorem C3_witness : Reachable c3Tree ∧ geLinks c3Tree := by
  have hr : Reachable c3Tree :=
    Reachable.add_left c1Tree1 1 2
      (Reachable.add_root BinaryTree.new 10 Reachable.new)
  exact ⟨hr, C3_links_ge c3Tree hr⟩

/-- Claim C4: print() terminates on every tree reachable from the empty tree
by any sequence of add_root, add_left_node and add_right_node calls with
arbitrary parent indices: some fuel bound makes the stack loop finish. -/
theorem C4_print_terminates {T : Type} (t : BinaryTree T) (h : Reachable t) :
    ∃ fuel res, t.printVisits fuel = some res :=
  print_terminates_of_inv t (treeInv_of_reachable h)

/-- Witness for C4 at the concrete self-loop tree c3Tree. -/
theorem C4_witness : ∃ fuel res, c3Tree.printVisits fuel = some res :=
  C4_print_terminates c3Tree
    (Reachable.add_left c1Tree1 1 2
      (Reachable.add_root BinaryTree.new 10 Reachable.new))

/-- Claim C5: inserting a left or right child under an out-of-range parent
index (p at least len()) appends the node — the length grows by one — while
every node that existed before the call is left unchanged. -/
theorem C5_out_of_range_append {T : Type} (t : BinaryTree T) (p : Nat)
    (c : BinaryTreeNode T) (h : t.len ≤ p) : outOfRangeAppendSpec t p c := by
  refine ⟨(add_node_len t p true c).1, (add_node_len t p false c).1, ?_⟩
  intro j hj
  have hh : t.tree.length ≤ p := h
  by_cases h0 : t.tree = []
  · exfalso
    have hz : t.tree.length = 0 := by simp [h0]
    have hj' : j < t.tree.length := hj
    omega
  · have hL : t.tree.length ≠ 0 := by simpa [List.length_eq_zero] using h0
    have hjL : j < t.tree.length := hj
    constructor
    · show (t.add_node p true c).1.get_node j = t.get_node j
      rcases eq_or_ne p t.tree.length with hp | hp
      · rw [hp, add_node_parent_self t true c hL]
        show (t.tree ++ [_])[j]? = t.tree[j]?
        exact List.getElem?_append_left hjL
      · rw [add_node_parent_big t p true c hL (by omega)]
        show (t.tree ++ [_])[j]? = t.tree[j]?
        exact List.getElem?_append_left hjL
    · show (t.add_node p false c).1.get_node j = t.get_node j
      rcases eq_or_ne p t.tree.length with hp | hp
      · rw [hp, add_node_parent_self t false c hL]
        show (t.tree ++ [_])[j]? = t.tree[j]?
        exact List.getElem?_append_left hjL
      · rw [add_node_parent_big t p false c hL (by omega)]
        show (t.tree ++ [_])[j]? = t.tree[j]?
        exact List.getElem?_append_left hjL

/-- Witness for C5 at the concrete one-node tree c1Tree1 and parent 5. -/
theorem C5_witness :
    c1Tree1.len ≤ 5 ∧ outOfRangeAppendSpec c1Tree1 5 (BinaryTreeNode.new 4) :=
  ⟨by decide, C5_out_of_range_append c1Tree1 5 (BinaryTreeNode.new 4) (by decide)⟩

/-- Claim C7: for every reachable tree and every node obtained from it,
get_left_child returns an absent result exactly when the node's left field
is 0, and get_right_child exactly when the right field is 0. -/
theorem C7_child_absent_iff {T : Type} (t : BinaryTree T) (i : Nat)
    (n : BinaryTreeNode T) (hr : Reachable t) (hn : t.get_node i = some n) :
    childAbsentIffSpec t n := by
  obtain ⟨hidx, hl, hr'⟩ := treeInv_of_reachable hr i n hn
  have hiL : i < t.len := by
    have hh := hn
    simp only [BinaryTree.get_node] at hh
    exact (List.getElem?_eq_some_iff.mp hh).1
  constructor
  · constructor
    · intro hnone
      by_contra h0
      have hlt : n.left < t.len := by
        rcases hl with h' | ⟨_, h'⟩ | ⟨h', _⟩
        · exact absurd h' h0
        · exact h'
        · omega
      obtain ⟨m, hm⟩ : ∃ m, t.tree[n.left]? = some m :=
        ⟨_, List.getElem?_eq_getElem hlt⟩
      simp only [BinaryTree.get_left_child, if_neg h0] at hnone
      rw [hm] at hnone
      cases hnone
    · intro h0
      simp [BinaryTree.get_left_child, h0]
  · constructor
    · intro hnone
      by_contra h0
      have hlt : n.right < t.len := by
        rcases hr' with h' | ⟨_, h'⟩ | ⟨h', _⟩
        · exact absurd h' h0
        · exact h'
        · omega
      obtain ⟨m, hm⟩ : ∃ m, t.tree[n.right]? = some m :=
        ⟨_, List.getElem?_eq_getElem hlt⟩
      simp only [BinaryTree.get_right_child, if_neg h0] at hnone
      rw [hm] at hnone
      cases hnone
    · intro h0
      simp [BinaryTree.get_right_child, h0]

/-- Witness for C7 at the concrete two-node tree c7Tree and its root node. -/
theorem C7_witness :
    Reachable c7Tree ∧ c7Tree.get_node 0 = some ⟨10, 0, 1, 0⟩ ∧
      childAbsentIffSpec c7Tree ⟨10, 0, 1, 0⟩ := by
  have hr : Reachable c7Tree :=
    Reachable.add_left c1Tree1 0 5
      (Reachable.add_root BinaryTree.new 10 Reachable.new)
  exact ⟨hr, by decide, C7_child_absent_iff c7Tree 0 ⟨10, 0, 1, 0⟩ hr (by decide)⟩

end Gbdt
